import Mathlib

/-!
Verification of the ABS cash-flow simulation (src/ABS.PY).

The Python script is embedded shallowly over the rationals `ℚ`: the
floating-point arithmetic of the source is modelled as exact rational
arithmetic, which is the mathematics the script implements.  Library
calls that are not part of the repository (NumPy's seeded PRNG and
`numpy_financial.irr`) are modelled from the spec where needed, each
such definition carrying a doc comment saying so.
-/

namespace ABS

/-- A loan of the portfolio: positive principal, annual interest rate and
term in months (the script fixes the term at 36 for every loan). -/
structure Loan where
  principal : ℚ
  annual_rate : ℚ
  term : ℕ

/-- `monthly_payment` from src/ABS.PY lines 19-21: the level annuity
payment `principal * r / (1 - (1 + r) ** (-months))` with `r = annual_rate / 12`. -/
def monthly_payment (principal annual_rate : ℚ) (months : ℕ) : ℚ :=
  let r := annual_rate / 12
  principal * r / (1 - (1 + r) ^ (-(months : ℤ)))

/-- One month of an amortization schedule: the recorded cash flow
(`loan_cashflows[i, m]` in the source), its interest and principal
components, whether the final-payment adjustment branch fired, and the
balance left after the month. -/
structure MonthEntry where
  payment : ℚ
  interest : ℚ
  principal_component : ℚ
  adjusted : Bool
  balance_after : ℚ

/-- The month-by-month amortization loop of src/ABS.PY lines 37-46,
threading the mutable `balance` and `pay` variables through the
recursion.  Each month computes `interest = balance * r` and
`principal_payment = pay - interest`; if `balance < principal_payment`
the component is clamped to the balance and `pay` is recomputed as
`principal_payment + interest` (and, as in the source, the reassigned
`pay` is the one used in every later month).  The recorded cash flow is
`pay` and the balance is decremented by the principal component.
Returns the list of month entries together with the final balance. -/
def amortize (r : ℚ) : ℕ → ℚ → ℚ → List MonthEntry × ℚ
  | 0, balance, _ => ([], balance)
  | m + 1, balance, pay =>
    let interest_payment := balance * r
    let principal_payment := pay - interest_payment
    if balance < principal_payment then
      let pp := balance
      let pay2 := pp + interest_payment
      let rest := amortize r m (balance - pp) pay2
      (⟨pay2, interest_payment, pp, true, balance - pp⟩ :: rest.1, rest.2)
    else
      let rest := amortize r m (balance - principal_payment) pay
      (⟨pay, interest_payment, principal_payment, false, balance - principal_payment⟩ :: rest.1,
        rest.2)

/-- The schedule computed for one loan by the loop of src/ABS.PY
lines 33-46: monthly rate `interest_rates[i] / 12`, initial balance
`loan_amounts[i]`, initial payment `payments[i] = monthly_payment ...`. -/
def loanSchedule (L : Loan) : List MonthEntry :=
  (amortize (L.annual_rate / 12) L.term L.principal
    (monthly_payment L.principal L.annual_rate L.term)).1

/-- The value of the loop variable `balance` after the loop over the
loan's `term` months has finished. -/
def loanFinalBalance (L : Loan) : ℚ :=
  (amortize (L.annual_rate / 12) L.term L.principal
    (monthly_payment L.principal L.annual_rate L.term)).2

/-- The row `loan_cashflows[i, :]` of src/ABS.PY line 45: the recorded
monthly cash flows of one loan. -/
def loan_cashflows (L : Loan) : List ℚ :=
  (loanSchedule L).map MonthEntry.payment

/-- The annuity factor `(1 - (1 + r) ^ (-m)) / r`: the present value of
`m` unit payments at periodic rate `r`.  The closed-form invariant of the
amortization loop is that after `k` months the balance equals
`pay * annuityFactor r (term - k)`. -/
def annuityFactor (r : ℚ) (m : ℕ) : ℚ :=
  (1 - (1 + r) ^ (-(m : ℤ))) / r

/-- `portfolio_cashflow` of src/ABS.PY line 49: the element-wise sum,
across all loans, of the per-loan cash-flow rows (`sum(axis=0)` of the
`num_loans × term` matrix). -/
def portfolio_cashflow (schedules : List (List ℚ)) (term : ℕ) : List ℚ :=
  (List.range term).map (fun m => (schedules.map (fun s => s.getD m 0)).sum)

/-- `total_cash` of src/ABS.PY line 50: the sum of the aggregated
monthly series. -/
def total_cash (schedules : List (List ℚ)) (term : ℕ) : ℚ :=
  (portfolio_cashflow schedules term).sum

/-- `total_principal` of src/ABS.PY line 51: the sum of all loan
principals. -/
def total_principal (loans : List Loan) : ℚ :=
  (loans.map Loan.principal).sum

/-- `senior_pct` of src/ABS.PY line 57 (`0.70`). -/
def senior_pct : ℚ := 70 / 100

/-- `mezzanine_pct` of src/ABS.PY line 57 (`0.20`). -/
def mezzanine_pct : ℚ := 20 / 100

/-- `equity_pct` of src/ABS.PY line 57 (`0.10`). -/
def equity_pct : ℚ := 10 / 100

/-- A tranche's initial investment, src/ABS.PY lines 60-62: its share
of total principal. -/
def tranche_investment (total_principal pct : ℚ) : ℚ :=
  total_principal * pct

/-- A tranche's share of the total cash collected, src/ABS.PY
lines 65-67. -/
def tranche_total_cash (total_cash pct : ℚ) : ℚ :=
  total_cash * pct

/-- A tranche's cash-flow series, src/ABS.PY lines 70-72:
`np.full(term, tranche_total_cash / term)`. -/
def tranche_cf (total_cash pct : ℚ) (term : ℕ) : List ℚ :=
  List.replicate term (tranche_total_cash total_cash pct / term)

/-- Modelled from the spec: the net present value of a signed cash-flow
vector, "sum of `cf[t] / (1+r)^t` for t=0..term" (spec section 4.5).
`numpy_financial.irr`, the root-finder of this function, is an external
library and not part of the repository. -/
def npv (rate : ℚ) (cfs : List ℚ) : ℚ :=
  (cfs.enum.map (fun p => p.2 / (1 + rate) ^ p.1)).sum

/-- `calculate_irr` of src/ABS.PY lines 77-80.  The external root-finder
`npf.irr` is not part of the repository; modelled from the spec it is a
parameter `irrFind` whose "not-a-number" failure result is `none`.  The
function builds the signed vector `[-initial_investment] + cf_series`
and substitutes 0 for a failed root-find. -/
def calculate_irr (irrFind : List ℚ → Option ℚ) (cf_series : List ℚ)
    (initial_investment : ℚ) : ℚ :=
  match irrFind (-initial_investment :: cf_series) with
  | none => 0
  | some v => v

/-- `num_loans` of src/ABS.PY line 11. -/
def num_loans : ℕ := 100

/-- `term` of src/ABS.PY line 12 (months). -/
def term : ℕ := 36

/-- Modelled from the spec: a single `np.random.uniform(a, b)` draw from
a unit-interval sample `u`, "drawing principal and rate uniformly at
random from the given ranges" (spec section 4.1). -/
def uniform (a b u : ℚ) : ℚ :=
  a + (b - a) * u

/-- `loan_amounts` of src/ABS.PY line 15.  Modelled from the spec: the
seeded NumPy PRNG behind `np.random.uniform(10_000, 50_000, num_loans)`
is not part of the repository, so the generator is parametrised by the
stream `draws` of unit-interval samples the seeded source produces. -/
def loan_amounts (draws : ℕ → ℚ) : List ℚ :=
  (List.range num_loans).map (fun i => uniform 10000 50000 (draws i))

/-- `interest_rates` of src/ABS.PY line 16, drawing from the stream
after the 100 principal draws.  Modelled from the spec like
`loan_amounts`. -/
def interest_rates (draws : ℕ → ℚ) : List ℚ :=
  (List.range num_loans).map (fun i => uniform (5 / 100) (15 / 100) (draws (num_loans + i)))

/-- All quantities the script prints or plots: totals, tranche figures
and IRRs (src/ABS.PY lines 49-90). -/
structure Results where
  loan_amounts : List ℚ
  interest_rates : List ℚ
  portfolio_cashflow : List ℚ
  total_cash : ℚ
  total_principal : ℚ
  senior_investment : ℚ
  mezzanine_investment : ℚ
  equity_investment : ℚ
  senior_total_cash : ℚ
  mezzanine_total_cash : ℚ
  equity_total_cash : ℚ
  irr_senior : ℚ
  irr_mezzanine : ℚ
  irr_equity : ℚ

/-- The whole script as a function of the random source and the
root-finder.  Modelled from the spec: `np.random.seed(42)` (src/ABS.PY
line 6) makes every draw a deterministic function of the seed, so the
PRNG is a stream `prng seed : ℕ → ℚ` of unit-interval samples and the
run is parametrised by it; everything downstream is the source's own
pipeline (lines 11-84). -/
def runProgram (prng : ℕ → ℕ → ℚ) (irrFind : List ℚ → Option ℚ)
    (seed : ℕ) : Results :=
  let draws := prng seed
  let amounts := loan_amounts draws
  let rates := interest_rates draws
  let loans := List.zipWith (fun p r => Loan.mk p r term) amounts rates
  let schedules := loans.map loan_cashflows
  let pcf := portfolio_cashflow schedules term
  let tc := pcf.sum
  let tp := amounts.sum
  { loan_amounts := amounts
    interest_rates := rates
    portfolio_cashflow := pcf
    total_cash := tc
    total_principal := tp
    senior_investment := tranche_investment tp senior_pct
    mezzanine_investment := tranche_investment tp mezzanine_pct
    equity_investment := tranche_investment tp equity_pct
    senior_total_cash := tranche_total_cash tc senior_pct
    mezzanine_total_cash := tranche_total_cash tc mezzanine_pct
    equity_total_cash := tranche_total_cash tc equity_pct
    irr_senior := calculate_irr irrFind (tranche_cf tc senior_pct term)
      (tranche_investment tp senior_pct)
    irr_mezzanine := calculate_irr irrFind (tranche_cf tc mezzanine_pct term)
      (tranche_investment tp mezzanine_pct)
    irr_equity := calculate_irr irrFind (tranche_cf tc equity_pct term)
      (tranche_investment tp equity_pct) }

instance : Inhabited MonthEntry :=
  ⟨⟨0, 0, 0, false, 0⟩⟩

theorem annuityFactor_zero (r : ℚ) : annuityFactor r 0 = 0 := by
  simp [annuityFactor]

theorem annuityFactor_succ_mul (r : ℚ) (hr : 0 < r) (m : ℕ) :
    annuityFactor r (m + 1) * (1 + r) = 1 + annuityFactor r m := by
  have h1r : (1 + r) ≠ 0 := by positivity
  have key : (1 + r) ^ (-(m : ℤ)) = (1 + r) ^ (-((m : ℤ) + 1)) * (1 + r) := by
    rw [← zpow_add_one₀ h1r]
    ring_nf
  unfold annuityFactor
  push_cast
  rw [key]
  have hr' : r ≠ 0 := ne_of_gt hr
  field_simp
  ring

theorem annuityFactor_nonneg (r : ℚ) (hr : 0 < r) (m : ℕ) :
    0 ≤ annuityFactor r m := by
  unfold annuityFactor
  rw [zpow_neg, zpow_natCast]
  have h1 : (1 : ℚ) ≤ (1 + r) ^ m := one_le_pow₀ (by linarith)
  have h2 : ((1 + r) ^ m)⁻¹ ≤ 1 := inv_le_one_of_one_le₀ h1
  have hnum : 0 ≤ 1 - ((1 + r) ^ m)⁻¹ := by linarith
  positivity

theorem annuityFactor_pos (r : ℚ) (hr : 0 < r) (m : ℕ) (hm : 1 ≤ m) :
    0 < annuityFactor r m := by
  unfold annuityFactor
  rw [zpow_neg, zpow_natCast]
  have h1 : (1 : ℚ) < (1 + r) ^ m := one_lt_pow₀ (by linarith) (by omega)
  have h2 : ((1 + r) ^ m)⁻¹ < 1 := inv_lt_one_of_one_lt₀ h1
  have hnum : 0 < 1 - ((1 + r) ^ m)⁻¹ := by linarith
  positivity

theorem annuityFactor_lt (r : ℚ) (hr : 0 < r) (m : ℕ) :
    annuityFactor r m * r < 1 := by
  unfold annuityFactor
  have h1r : (0 : ℚ) < 1 + r := by linarith
  have hpow : 0 < (1 + r) ^ (-(m : ℤ)) := by positivity
  rw [div_mul_cancel₀ _ (ne_of_gt hr)]
  linarith

theorem annuityFactor_mono (r : ℚ) (hr : 0 < r) (m : ℕ) :
    annuityFactor r m ≤ annuityFactor r (m + 1) := by
  have h := annuityFactor_succ_mul r hr m
  have hlt := annuityFactor_lt r hr m
  have h1r : (0 : ℚ) < 1 + r := by linarith
  nlinarith

/-- When the balance equals `pay` payments discounted at rate `r`
(`pay * annuityFactor r (m + 1)`), the adjustment branch of the loop
does not fire, the month records the scheduled payment, and the new
balance is `pay * annuityFactor r m`. -/
theorem amortize_annuity_step (r pay : ℚ) (hr : 0 < r) (hpay : 0 < pay) (m : ℕ) :
    amortize r (m + 1) (pay * annuityFactor r (m + 1)) pay =
      (⟨pay, pay * annuityFactor r (m + 1) * r,
          pay - pay * annuityFactor r (m + 1) * r, false,
          pay * annuityFactor r m⟩ ::
            (amortize r m (pay * annuityFactor r m) pay).1,
        (amortize r m (pay * annuityFactor r m) pay).2) := by
  have h := annuityFactor_succ_mul r hr m
  have h0 := annuityFactor_nonneg r hr m
  have heq : pay - pay * annuityFactor r (m + 1) * r =
      pay * annuityFactor r (m + 1) - pay * annuityFactor r m := by
    linear_combination (-pay) * h
  have hnlt : ¬ (pay * annuityFactor r (m + 1) <
      pay - pay * annuityFactor r (m + 1) * r) := by
    rw [heq]
    push_neg
    nlinarith
  have hnb : pay * annuityFactor r (m + 1) -
      (pay - pay * annuityFactor r (m + 1) * r) = pay * annuityFactor r m := by
    rw [heq]
    ring
  simp only [amortize]
  rw [if_neg hnlt, hnb]

/-- Core invariant of the amortization loop at the exact annuity
payment: every month records the unchanged payment `pay`, the branch
never fires, the balance after `k` months is
`pay * annuityFactor r (m - k - 1)`, the principal components are
positive and sum to the initial balance, and the final balance is
exactly 0. -/
theorem amortize_annuity (r pay : ℚ) (hr : 0 < r) (hpay : 0 < pay) :
    ∀ m : ℕ,
      (amortize r m (pay * annuityFactor r m) pay).1.map MonthEntry.payment
          = List.replicate m pay
      ∧ (amortize r m (pay * annuityFactor r m) pay).1.map MonthEntry.adjusted
          = List.replicate m false
      ∧ (amortize r m (pay * annuityFactor r m) pay).1.map MonthEntry.balance_after
          = (List.range m).map (fun k => pay * annuityFactor r (m - k - 1))
      ∧ ((amortize r m (pay * annuityFactor r m) pay).1.map
            MonthEntry.principal_component).sum = pay * annuityFactor r m
      ∧ (∀ e ∈ (amortize r m (pay * annuityFactor r m) pay).1,
            0 < e.principal_component)
      ∧ (amortize r m (pay * annuityFactor r m) pay).2 = 0 := by
  intro m
  induction m with
  | zero => simp [amortize, annuityFactor_zero]
  | succ m ih =>
    obtain ⟨ih1, ih2, ih3, ih4, ih5, ih6⟩ := ih
    rw [amortize_annuity_step r pay hr hpay m]
    refine ⟨?_, ?_, ?_, ?_, ?_, ?_⟩
    · rw [List.map_cons, ih1, List.replicate_succ]
    · rw [List.map_cons, ih2, List.replicate_succ]
    · rw [List.map_cons, ih3, List.range_succ_eq_map, List.map_cons, List.map_map]
      have hhead : pay * annuityFactor r m = pay * annuityFactor r (m + 1 - 0 - 1) := by
        norm_num
      rw [hhead]
      congr 1
      apply List.map_congr_left
      intro k _
      have : m + 1 - Nat.succ k - 1 = m - k - 1 := by omega
      simp only [Function.comp_apply, Nat.succ_eq_add_one]
      rw [show m + 1 - (k + 1) - 1 = m - k - 1 by omega]
    · rw [List.map_cons, List.sum_cons, ih4]
      linear_combination (-pay) * annuityFactor_succ_mul r hr m
    · intro e he
      rcases List.mem_cons.mp he with he | he
      · subst he
        have hlt := annuityFactor_lt r hr (m + 1)
        show 0 < pay - pay * annuityFactor r (m + 1) * r
        nlinarith
      · exact ih5 e he
    · exact ih6

/-- The annuity payment times the annuity factor of the full term gives
back the principal: `monthly_payment` inverts the loop invariant. -/
theorem monthly_payment_mul_annuityFactor (L : Loan) (hr0 : 0 < L.annual_rate)
    (ht : 1 ≤ L.term) :
    monthly_payment L.principal L.annual_rate L.term *
      annuityFactor (L.annual_rate / 12) L.term = L.principal := by
  have hr : 0 < L.annual_rate / 12 := by positivity
  have haf := annuityFactor_pos (L.annual_rate / 12) hr L.term ht
  have hne : 1 - (1 + L.annual_rate / 12) ^ (-(L.term : ℤ)) ≠ 0 := by
    intro h
    rw [annuityFactor, h] at haf
    simp at haf
  have hr' : L.annual_rate / 12 ≠ 0 := ne_of_gt hr
  unfold monthly_payment annuityFactor
  rw [show L.principal * (L.annual_rate / 12) /
        (1 - (1 + L.annual_rate / 12) ^ (-(L.term : ℤ))) *
        ((1 - (1 + L.annual_rate / 12) ^ (-(L.term : ℤ))) / (L.annual_rate / 12)) =
      L.principal * (L.annual_rate / 12 / (L.annual_rate / 12)) *
        ((1 - (1 + L.annual_rate / 12) ^ (-(L.term : ℤ))) /
          (1 - (1 + L.annual_rate / 12) ^ (-(L.term : ℤ)))) from by ring]
  rw [div_self hr', div_self hne, mul_one, mul_one]

theorem monthly_payment_pos (L : Loan) (hP : 0 < L.principal)
    (hr0 : 0 < L.annual_rate) (ht : 1 ≤ L.term) :
    0 < monthly_payment L.principal L.annual_rate L.term := by
  have hr : 0 < L.annual_rate / 12 := by positivity
  have haf := annuityFactor_pos (L.annual_rate / 12) hr L.term ht
  have key := monthly_payment_mul_annuityFactor L hr0 ht
  nlinarith

theorem amortize_length (r : ℚ) : ∀ (m : ℕ) (balance pay : ℚ),
    (amortize r m balance pay).1.length = m
  | 0, _, _ => rfl
  | m + 1, balance, pay => by
    simp only [amortize]
    split <;> simp [amortize_length r m]

/-- One step of the loop when the adjustment branch fires: the
principal component is clamped to the balance, the recorded payment is
`balance + interest`, the new balance is exactly 0, and the reassigned
(smaller) payment is the one threaded into all later months. -/
theorem amortize_clamp_step (r balance pay : ℚ) (m : ℕ)
    (hfire : balance < pay - balance * r) :
    amortize r (m + 1) balance pay =
      (⟨balance + balance * r, balance * r, balance, true, 0⟩ ::
          (amortize r m 0 (balance + balance * r)).1,
        (amortize r m 0 (balance + balance * r)).2) := by
  simp only [amortize]
  rw [if_pos hfire, sub_self]

/-- Once the balance is exactly 0 (and the current payment is
nonnegative), every remaining month records a payment of exactly 0 and
the balance stays 0. -/
theorem amortize_zero_balance (r : ℚ) :
    ∀ (m : ℕ) (pay : ℚ), 0 ≤ pay →
      (amortize r m 0 pay).1.map MonthEntry.payment = List.replicate m 0
      ∧ (amortize r m 0 pay).1.map MonthEntry.balance_after = List.replicate m 0
      ∧ (amortize r m 0 pay).2 = 0 := by
  intro m
  induction m with
  | zero => intro pay _; simp [amortize]
  | succ m ih =>
    intro pay hpay
    rcases eq_or_lt_of_le hpay with h | h
    · subst h
      have hnfire : ¬ ((0 : ℚ) < 0 - 0 * r) := by simp
      obtain ⟨ih1, ih2, ih3⟩ := ih 0 le_rfl
      simp only [amortize, zero_mul, sub_zero, sub_self, lt_self_iff_false,
        if_false, List.map_cons, List.replicate_succ]
      exact ⟨by rw [ih1], by rw [ih2], ih3⟩
    · have hfire : (0 : ℚ) < pay - 0 * r := by simpa using h
      have hstep := amortize_clamp_step r 0 pay m hfire
      obtain ⟨ih1, ih2, ih3⟩ := ih (0 + 0 * r) (by simp)
      refine ⟨?_, ?_, ?_⟩
      · rw [hstep, List.map_cons, ih1, List.replicate_succ]
        norm_num
      · rw [hstep, List.map_cons, ih2, List.replicate_succ]
      · rw [hstep]
        simpa using ih3

/-- The schedule of a well-formed loan, rewritten through the loop
invariant: the starting balance is `pay * annuityFactor r term`. -/
theorem loanSchedule_eq (L : Loan) (hr0 : 0 < L.annual_rate) (ht : 1 ≤ L.term) :
    loanSchedule L =
      (amortize (L.annual_rate / 12) L.term
        (monthly_payment L.principal L.annual_rate L.term *
          annuityFactor (L.annual_rate / 12) L.term)
        (monthly_payment L.principal L.annual_rate L.term)).1 := by
  unfold loanSchedule
  rw [monthly_payment_mul_annuityFactor L hr0 ht]

/-- The loop's final balance, rewritten through the loop invariant. -/
theorem loanFinalBalance_eq (L : Loan) (hr0 : 0 < L.annual_rate) (ht : 1 ≤ L.term) :
    loanFinalBalance L =
      (amortize (L.annual_rate / 12) L.term
        (monthly_payment L.principal L.annual_rate L.term *
          annuityFactor (L.annual_rate / 12) L.term)
        (monthly_payment L.principal L.annual_rate L.term)).2 := by
  unfold loanFinalBalance
  rw [monthly_payment_mul_annuityFactor L hr0 ht]

/-- One step of the loop when the adjustment branch does not fire. -/
theorem amortize_nofire_step (r balance pay : ℚ) (m : ℕ)
    (h : ¬ balance < pay - balance * r) :
    amortize r (m + 1) balance pay =
      (⟨pay, balance * r, pay - balance * r, false,
          balance - (pay - balance * r)⟩ ::
          (amortize r m (balance - (pay - balance * r)) pay).1,
        (amortize r m (balance - (pay - balance * r)) pay).2) := by
  simp only [amortize]
  rw [if_neg h]

theorem map_getD_range (l : List ℚ) :
    (List.range l.length).map (fun m => l.getD m 0) = l := by
  induction l with
  | nil => simp
  | cons x xs ih =>
    rw [List.length_cons, List.range_succ_eq_map, List.map_cons, List.map_map]
    have htail : List.map ((fun m => (x :: xs).getD m 0) ∘ Nat.succ)
        (List.range xs.length) = xs := by
      calc List.map ((fun m => (x :: xs).getD m 0) ∘ Nat.succ) (List.range xs.length)
          = List.map (fun m => xs.getD m 0) (List.range xs.length) := by
            apply List.map_congr_left
            intro k _
            simp
        _ = xs := ih
    rw [htail]
    rfl

theorem sum_map_add_eq (f g : ℕ → ℚ) (l : List ℕ) :
    (l.map (fun m => f m + g m)).sum = (l.map f).sum + (l.map g).sum := by
  induction l with
  | nil => simp
  | cons x xs ih =>
    simp only [List.map_cons, List.sum_cons, ih]
    ring

/-- Summation over months and over loans commute: the sum of the
aggregated monthly series is the sum of the per-loan schedule sums. -/
theorem total_cash_eq_sum_of_sums (term : ℕ) :
    ∀ schedules : List (List ℚ), (∀ s ∈ schedules, s.length = term) →
      total_cash schedules term = (schedules.map List.sum).sum := by
  intro schedules
  induction schedules with
  | nil => intro _; simp [total_cash, portfolio_cashflow]
  | cons s rest ih =>
    intro h
    have hs : s.length = term := h s (List.mem_cons_self s rest)
    have hrest := ih (fun t ht => h t (List.mem_cons_of_mem s ht))
    unfold total_cash portfolio_cashflow at hrest ⊢
    simp only [List.map_cons, List.sum_cons]
    rw [show (fun m => (s.getD m 0 + (rest.map (fun t => t.getD m 0)).sum)) =
        (fun m => s.getD m 0 + (fun m => (rest.map (fun t => t.getD m 0)).sum) m) from rfl]
    rw [sum_map_add_eq (fun m => s.getD m 0)
      (fun m => (rest.map (fun t => t.getD m 0)).sum) (List.range term)]
    rw [hrest, ← hs, map_getD_range]

theorem npv_nil (rate : ℚ) : npv rate [] = 0 := by
  simp [npv]

/-- Scaling every cash flow by `c` scales the discounted sum by `c`,
uniformly in the position offset of the enumeration. -/
theorem sum_enumFrom_scale (rate c : ℚ) :
    ∀ (l : List ℚ) (n : ℕ),
      (((l.map (fun x => c * x)).enumFrom n).map
          (fun p => p.2 / (1 + rate) ^ p.1)).sum
        = c * ((l.enumFrom n).map (fun p => p.2 / (1 + rate) ^ p.1)).sum := by
  intro l
  induction l with
  | nil => intro n; simp
  | cons x xs ih =>
    intro n
    simp only [List.map_cons, List.enumFrom, List.map, List.sum_cons]
    rw [ih (n + 1)]
    ring

/-- The net present value is homogeneous: scaling the cash-flow vector
scales the NPV. -/
theorem npv_scale (rate c : ℚ) (l : List ℚ) :
    npv rate (l.map (fun x => c * x)) = c * npv rate l := by
  unfold npv
  unfold List.enum
  exact sum_enumFrom_scale rate c l 0

/-- A tranche's signed cash-flow vector is the `pct`-scaling of the
whole pool's vector. -/
theorem tranche_vector_scale (tp tc pct : ℚ) (n : ℕ) :
    -(tranche_investment tp pct) :: tranche_cf tc pct n =
      ((-(tranche_investment tp 1)) :: tranche_cf tc 1 n).map
        (fun x => pct * x) := by
  unfold tranche_investment tranche_cf tranche_total_cash
  rw [List.map_cons, List.map_replicate]
  congr 1
  · ring
  · congr 1
    ring

/-- C1: for every loan (positive principal, annual rate in (0,1),
positive integer term), the month-by-month amortization loop ends with a
remaining balance of exactly 0 after `term` months, and the principal
components recorded across the schedule sum to the loan's original
principal. -/
theorem loan_balance_zero_and_principal_sum (L : Loan) (hP : 0 < L.principal)
    (hr0 : 0 < L.annual_rate) (hr1 : L.annual_rate < 1) (ht : 1 ≤ L.term) :
    loanFinalBalance L = 0
    ∧ ((loanSchedule L).map MonthEntry.principal_component).sum = L.principal := by
  have hr : 0 < L.annual_rate / 12 := by positivity
  have hpay := monthly_payment_pos L hP hr0 ht
  have hkey := monthly_payment_mul_annuityFactor L hr0 ht
  obtain ⟨h1, h2, h3, h4, h5, h6⟩ :=
    amortize_annuity (L.annual_rate / 12)
      (monthly_payment L.principal L.annual_rate L.term) hr hpay L.term
  constructor
  · rw [loanFinalBalance_eq L hr0 ht]
    exact h6
  · rw [loanSchedule_eq L hr0 ht, h4]
    exact hkey

theorem loan_balance_zero_and_principal_sum_witness :
    loanFinalBalance ⟨10000, 12/100, 12⟩ = 0
    ∧ ((loanSchedule ⟨10000, 12/100, 12⟩).map
        MonthEntry.principal_component).sum = 10000 :=
  loan_balance_zero_and_principal_sum ⟨10000, 12/100, 12⟩
    (by norm_num) (by norm_num) (by norm_num) (by norm_num)

/-- C2: for every loan, every recorded monthly payment is positive and
the running balance is non-increasing month over month and never
negative. -/
theorem loan_payments_pos_balance_monotone (L : Loan) (hP : 0 < L.principal)
    (hr0 : 0 < L.annual_rate) (hr1 : L.annual_rate < 1) (ht : 1 ≤ L.term) :
    (∀ p ∈ loan_cashflows L, 0 < p)
    ∧ (L.principal :: (loanSchedule L).map MonthEntry.balance_after).Chain'
        (fun a b => b ≤ a)
    ∧ (∀ b ∈ (loanSchedule L).map MonthEntry.balance_after, 0 ≤ b) := by
  have hr : 0 < L.annual_rate / 12 := by positivity
  have hpay := monthly_payment_pos L hP hr0 ht
  have hkey := monthly_payment_mul_annuityFactor L hr0 ht
  obtain ⟨h1, h2, h3, h4, h5, h6⟩ :=
    amortize_annuity (L.annual_rate / 12)
      (monthly_payment L.principal L.annual_rate L.term) hr hpay L.term
  refine ⟨?_, ?_, ?_⟩
  · intro p hp
    unfold loan_cashflows at hp
    rw [loanSchedule_eq L hr0 ht, h1] at hp
    rw [List.eq_of_mem_replicate hp]
    exact hpay
  · have hlist : L.principal :: (loanSchedule L).map MonthEntry.balance_after
        = (List.range (L.term + 1)).map
            (fun k => monthly_payment L.principal L.annual_rate L.term *
              annuityFactor (L.annual_rate / 12) (L.term - k)) := by
      rw [loanSchedule_eq L hr0 ht, h3, List.range_succ_eq_map, List.map_cons,
        List.map_map]
      congr 1
      rw [Nat.sub_zero]
      exact hkey.symm
    rw [hlist, List.chain'_map]
    rw [show L.term + 1 = Nat.succ L.term from rfl, List.chain'_range_succ]
    intro m hm
    have hmono := annuityFactor_mono (L.annual_rate / 12) hr (L.term - m - 1)
    have e1 : L.term - Nat.succ m = L.term - m - 1 := by omega
    have e2 : L.term - m = (L.term - m - 1) + 1 := by omega
    rw [e1, e2]
    exact mul_le_mul_of_nonneg_left hmono (le_of_lt hpay)
  · intro b hb
    rw [loanSchedule_eq L hr0 ht, h3] at hb
    obtain ⟨k, hk, rfl⟩ := List.mem_map.mp hb
    exact mul_nonneg (le_of_lt hpay)
      (annuityFactor_nonneg (L.annual_rate / 12) hr _)

theorem loan_payments_pos_balance_monotone_witness :
    (∀ p ∈ loan_cashflows ⟨10000, 12/100, 12⟩, 0 < p)
    ∧ ((10000 : ℚ) :: (loanSchedule ⟨10000, 12/100, 12⟩).map
          MonthEntry.balance_after).Chain' (fun a b => b ≤ a)
    ∧ (∀ b ∈ (loanSchedule ⟨10000, 12/100, 12⟩).map
          MonthEntry.balance_after, 0 ≤ b) :=
  loan_payments_pos_balance_monotone ⟨10000, 12/100, 12⟩
    (by norm_num) (by norm_num) (by norm_num) (by norm_num)

/-- C3: `monthly_payment` returns exactly
`principal * r / (1 - (1 + r) ^ (-months))` with `r = annual_rate / 12`;
for principal 10000, annual rate 0.12 and 12 months it is within 0.005
of 888.49, the first month's interest is exactly 100 and its principal
component is within 0.005 of 788.49. -/
theorem monthly_payment_formula_and_example :
    (∀ (principal annual_rate : ℚ) (months : ℕ),
        monthly_payment principal annual_rate months =
          principal * (annual_rate / 12) /
            (1 - (1 + annual_rate / 12) ^ (-(months : ℤ))))
    ∧ 888485/1000 < monthly_payment 10000 (12/100) 12
    ∧ monthly_payment 10000 (12/100) 12 < 888495/1000
    ∧ ((loanSchedule ⟨10000, 12/100, 12⟩).headD default).interest = 100
    ∧ 788485/1000 <
        ((loanSchedule ⟨10000, 12/100, 12⟩).headD default).principal_component
    ∧ ((loanSchedule ⟨10000, 12/100, 12⟩).headD default).principal_component
        < 788495/1000 := by
  have hnf : ¬ (10000 : ℚ) <
      monthly_payment 10000 (12/100) 12 - 10000 * (12/100/12) := by
    norm_num [monthly_payment]
  have hsched : loanSchedule ⟨10000, 12/100, 12⟩ =
      (amortize (12/100/12) (11 + 1) 10000
        (monthly_payment 10000 (12/100) 12)).1 := rfl
  have hhead : (loanSchedule ⟨10000, 12/100, 12⟩).headD default =
      ⟨monthly_payment 10000 (12/100) 12, 10000 * (12/100/12),
        monthly_payment 10000 (12/100) 12 - 10000 * (12/100/12), false,
        10000 - (monthly_payment 10000 (12/100) 12 - 10000 * (12/100/12))⟩ := by
    rw [hsched, amortize_nofire_step _ _ _ _ hnf]
    rfl
  refine ⟨fun principal annual_rate months => rfl, ?_, ?_, ?_, ?_, ?_⟩
  · norm_num [monthly_payment]
  · norm_num [monthly_payment]
  · rw [hhead]
    norm_num
  · rw [hhead]
    norm_num [monthly_payment]
  · rw [hhead]
    norm_num [monthly_payment]

/-- C4 counterexample: the loan (principal 100, annual rate 0.12,
term 2) is fully amortized by exactly 2 payments (the balance is
positive entering the final month and exactly 0 after it), yet the
adjustment branch does not fire in any month, in particular not in the
last: in exact arithmetic the final balance equals the final principal
component, and the branch's strict inequality does not trigger. -/
theorem clamp_not_triggered_on_last_month :
    loanFinalBalance ⟨100, 12/100, 2⟩ = 0
    ∧ (loanSchedule ⟨100, 12/100, 2⟩).map MonthEntry.balance_after
        = [10100/201, 0]
    ∧ (loanSchedule ⟨100, 12/100, 2⟩).map MonthEntry.adjusted
        = [false, false] := by
  refine ⟨?_, ?_, ?_⟩ <;>
    norm_num [loanFinalBalance, loanSchedule, monthly_payment, amortize]

/-- C4 amended: whenever the balance is less than the computed principal
component, the component is clamped to the balance and the payment is
recomputed as component plus interest, making that month's closing
balance exactly 0 (so no negative balance can arise); but in exact
arithmetic this correction never triggers for a loan amortized by
exactly `term` annuity payments — every month's `adjusted` flag,
including the last month's, is false. -/
theorem clamp_branch_amended (r balance pay : ℚ) (m : ℕ)
    (hfire : balance < pay - balance * r)
    (L : Loan) (hP : 0 < L.principal) (hr0 : 0 < L.annual_rate)
    (ht : 1 ≤ L.term) :
    amortize r (m + 1) balance pay =
      (⟨balance + balance * r, balance * r, balance, true, 0⟩ ::
          (amortize r m 0 (balance + balance * r)).1,
        (amortize r m 0 (balance + balance * r)).2)
    ∧ (loanSchedule L).map MonthEntry.adjusted = List.replicate L.term false := by
  refine ⟨amortize_clamp_step r balance pay m hfire, ?_⟩
  have hr : 0 < L.annual_rate / 12 := by positivity
  have hpay := monthly_payment_pos L hP hr0 ht
  obtain ⟨h1, h2, h3, h4, h5, h6⟩ :=
    amortize_annuity (L.annual_rate / 12)
      (monthly_payment L.principal L.annual_rate L.term) hr hpay L.term
  rw [loanSchedule_eq L hr0 ht]
  exact h2

theorem clamp_branch_amended_witness :
    amortize 0 (0 + 1) 1 2 =
      (⟨1 + 1 * 0, 1 * 0, 1, true, 0⟩ :: (amortize 0 0 0 (1 + 1 * 0)).1,
        (amortize 0 0 0 (1 + 1 * 0)).2)
    ∧ (loanSchedule ⟨100, 12/100, 2⟩).map MonthEntry.adjusted
        = List.replicate 2 false :=
  clamp_branch_amended 0 1 2 0 (by norm_num) ⟨100, 12/100, 2⟩
    (by norm_num) (by norm_num) (by norm_num)

/-- C10: when the adjustment branch fires in some month, the reassigned
payment is threaded into every later month (it is never restored): the
firing month records `balance + interest` and drives the balance to
exactly 0, after which every later month records a payment of exactly 0
and the balance stays 0; in general, from a balance of exactly 0 every
remaining month records a payment of exactly 0. -/
theorem reduced_payment_persists (r balance pay : ℚ) (m : ℕ)
    (hr : 0 ≤ r) (hb : 0 ≤ balance) (hfire : balance < pay - balance * r) :
    (amortize r (m + 1) balance pay).1.map MonthEntry.payment
        = (balance + balance * r) :: List.replicate m 0
    ∧ (amortize r (m + 1) balance pay).1.map MonthEntry.balance_after
        = 0 :: List.replicate m 0
    ∧ (∀ pay2 : ℚ, 0 ≤ pay2 →
        (amortize r m 0 pay2).1.map MonthEntry.payment
          = List.replicate m 0) := by
  have hpos : 0 ≤ balance + balance * r := by nlinarith
  obtain ⟨z1, z2, z3⟩ := amortize_zero_balance r m (balance + balance * r) hpos
  rw [amortize_clamp_step r balance pay m hfire]
  refine ⟨?_, ?_, fun pay2 h2 => (amortize_zero_balance r m pay2 h2).1⟩
  · rw [List.map_cons, z1]
  · rw [List.map_cons, z2]

/-- C5: when the root-finder reports no real root (the not-a-number
case, modelled as `none`), `calculate_irr` returns exactly 0; otherwise
it returns the found rate, at which (by the finder's soundness) the net
present value of `[-investment, cf...]` is zero.  The result is always a
rational number — never a not-a-number — and a failed root-find is
indistinguishable from a finder that genuinely finds the root 0. -/
theorem calculate_irr_masks_failure (irrFind : List ℚ → Option ℚ)
    (hsound : ∀ l v, irrFind l = some v → npv v l = 0)
    (cf_series : List ℚ) (initial_investment : ℚ) :
    (irrFind (-initial_investment :: cf_series) = none →
        calculate_irr irrFind cf_series initial_investment = 0)
    ∧ (∀ v, irrFind (-initial_investment :: cf_series) = some v →
        calculate_irr irrFind cf_series initial_investment = v
          ∧ npv v (-initial_investment :: cf_series) = 0)
    ∧ (∀ g : List ℚ → Option ℚ,
        irrFind (-initial_investment :: cf_series) = none →
        g (-initial_investment :: cf_series) = some 0 →
        calculate_irr irrFind cf_series initial_investment =
          calculate_irr g cf_series initial_investment) := by
  refine ⟨?_, ?_, ?_⟩
  · intro h
    unfold calculate_irr
    rw [h]
  · intro v h
    unfold calculate_irr
    rw [h]
    exact ⟨rfl, hsound _ _ h⟩
  · intro g hf hg
    unfold calculate_irr
    rw [hf, hg]

theorem calculate_irr_masks_failure_witness :
    calculate_irr (fun l => if l = [-700, 770] then some (1/10) else none)
        [770] 700 = 1/10
    ∧ npv (1/10) ((-700 : ℚ) :: [770]) = 0 :=
  (calculate_irr_masks_failure
      (fun l => if l = [-700, 770] then some (1/10) else none)
      (by
        intro l v h
        simp only [] at h
        by_cases hl : l = [-700, 770]
        · subst hl
          rw [if_pos rfl] at h
          rw [← Option.some.inj h]
          norm_num [npv, List.enum, List.enumFrom]
        · rw [if_neg hl] at h
          exact absurd h (by simp))
      [770] 700).2.1 (1/10) (by simp)

/-- C6: the tranche fractions are 0.70, 0.20, 0.10 and sum to 1; each
tranche's investment is `total_principal * pct` and its cash-flow series
is a `term`-length series with every entry `total_cash * pct / term`;
the three investments sum to the total principal and the three tranche
cash totals sum to the total cash. -/
theorem tranche_allocation_identities (tp tc : ℚ) (n : ℕ) :
    senior_pct + mezzanine_pct + equity_pct = 1
    ∧ tranche_investment tp senior_pct + tranche_investment tp mezzanine_pct
        + tranche_investment tp equity_pct = tp
    ∧ tranche_total_cash tc senior_pct + tranche_total_cash tc mezzanine_pct
        + tranche_total_cash tc equity_pct = tc
    ∧ (∀ pct : ℚ, (tranche_cf tc pct n).length = n
        ∧ ∀ x ∈ tranche_cf tc pct n, x = tc * pct / n) := by
  refine ⟨by norm_num [senior_pct, mezzanine_pct, equity_pct], ?_, ?_, ?_⟩
  · unfold tranche_investment senior_pct mezzanine_pct equity_pct
    ring
  · unfold tranche_total_cash senior_pct mezzanine_pct equity_pct
    ring
  · intro pct
    constructor
    · simp [tranche_cf]
    · intro x hx
      unfold tranche_cf tranche_total_cash at hx
      exact List.eq_of_mem_replicate hx

theorem tranche_allocation_identities_witness :
    senior_pct + mezzanine_pct + equity_pct = 1
    ∧ tranche_investment 1000 senior_pct + tranche_investment 1000 mezzanine_pct
        + tranche_investment 1000 equity_pct = 1000
    ∧ tranche_total_cash 1100 senior_pct + tranche_total_cash 1100 mezzanine_pct
        + tranche_total_cash 1100 equity_pct = 1100
    ∧ (∀ pct : ℚ, (tranche_cf 1100 pct 1).length = 1
        ∧ ∀ x ∈ tranche_cf 1100 pct 1, x = 1100 * pct / 1) :=
  tranche_allocation_identities 1000 1100 1

/-- C7: the portfolio series is the element-wise sum of the per-loan
schedules and has length `term`; `total_cash` is the sum of all entries
of all schedules, and `total_principal` the sum of all loan
principals. -/
theorem portfolio_aggregation (loans : List Loan) (n : ℕ)
    (h : ∀ L ∈ loans, L.term = n) :
    (portfolio_cashflow (loans.map loan_cashflows) n).length = n
    ∧ (∀ m, m < n →
        (portfolio_cashflow (loans.map loan_cashflows) n).getD m 0
          = ((loans.map loan_cashflows).map (fun s => s.getD m 0)).sum)
    ∧ total_cash (loans.map loan_cashflows) n
        = ((loans.map loan_cashflows).map List.sum).sum
    ∧ total_principal loans = (loans.map Loan.principal).sum := by
  have hlen : ∀ s ∈ loans.map loan_cashflows, s.length = n := by
    intro s hs
    obtain ⟨L, hL, rfl⟩ := List.mem_map.mp hs
    unfold loan_cashflows loanSchedule
    rw [List.length_map, amortize_length]
    exact h L hL
  refine ⟨?_, ?_, total_cash_eq_sum_of_sums n _ hlen, rfl⟩
  · simp [portfolio_cashflow]
  · intro m hm
    unfold portfolio_cashflow
    rw [List.getD_eq_getElem?_getD, List.getElem?_map, List.getElem?_range hm]
    rfl

theorem portfolio_aggregation_witness :
    (portfolio_cashflow ([⟨100, 12/100, 2⟩].map loan_cashflows) 2).length = 2
    ∧ (∀ m, m < 2 →
        (portfolio_cashflow ([⟨100, 12/100, 2⟩].map loan_cashflows) 2).getD m 0
          = (([⟨100, 12/100, 2⟩].map loan_cashflows).map
              (fun s => s.getD m 0)).sum)
    ∧ total_cash ([⟨100, 12/100, 2⟩].map loan_cashflows) 2
        = (([⟨100, 12/100, 2⟩].map loan_cashflows).map List.sum).sum
    ∧ total_principal [⟨100, 12/100, 2⟩]
        = ([(⟨100, 12/100, 2⟩ : Loan)].map Loan.principal).sum :=
  portfolio_aggregation [⟨100, 12/100, 2⟩] 2
    (by
      intro L hL
      rw [List.mem_singleton] at hL
      subst hL
      rfl)

/-- C8: scaling the cash-flow vector by a nonzero factor does not move
the roots of the NPV equation; each tranche's signed vector is the
`pct`-scaling of the whole-pool vector; hence for any root-finder
invariant under positive scaling, every positive fraction yields the
same rate, and Senior, Mezzanine and Equity receive identical IRRs. -/
theorem tranche_irrs_identical (irrFind : List ℚ → Option ℚ)
    (hscale : ∀ c : ℚ, 0 < c → ∀ l, irrFind (l.map (fun x => c * x)) = irrFind l)
    (tp tc : ℚ) (n : ℕ) :
    (∀ (rate c : ℚ) (l : List ℚ), c ≠ 0 →
        (npv rate (l.map (fun x => c * x)) = 0 ↔ npv rate l = 0))
    ∧ (∀ pct : ℚ, 0 < pct →
        calculate_irr irrFind (tranche_cf tc pct n) (tranche_investment tp pct)
          = calculate_irr irrFind (tranche_cf tc 1 n) (tranche_investment tp 1))
    ∧ calculate_irr irrFind (tranche_cf tc senior_pct n)
          (tranche_investment tp senior_pct)
        = calculate_irr irrFind (tranche_cf tc mezzanine_pct n)
            (tranche_investment tp mezzanine_pct)
    ∧ calculate_irr irrFind (tranche_cf tc mezzanine_pct n)
          (tranche_investment tp mezzanine_pct)
        = calculate_irr irrFind (tranche_cf tc equity_pct n)
            (tranche_investment tp equity_pct) := by
  have hmain : ∀ pct : ℚ, 0 < pct →
      calculate_irr irrFind (tranche_cf tc pct n) (tranche_investment tp pct)
        = calculate_irr irrFind (tranche_cf tc 1 n) (tranche_investment tp 1) := by
    intro pct hpct
    unfold calculate_irr
    rw [tranche_vector_scale tp tc pct n, hscale pct hpct]
  refine ⟨?_, hmain, ?_, ?_⟩
  · intro rate c l hc
    rw [npv_scale]
    constructor
    · intro h
      rcases mul_eq_zero.mp h with h | h
      · exact absurd h hc
      · exact h
    · intro h
      rw [h, mul_zero]
  · rw [hmain senior_pct (by norm_num [senior_pct]),
      hmain mezzanine_pct (by norm_num [mezzanine_pct])]
  · rw [hmain mezzanine_pct (by norm_num [mezzanine_pct]),
      hmain equity_pct (by norm_num [equity_pct])]

theorem tranche_irrs_identical_witness :
    calculate_irr (fun _ => none) (tranche_cf 1100 senior_pct 1)
        (tranche_investment 1000 senior_pct)
      = calculate_irr (fun _ => none) (tranche_cf 1100 mezzanine_pct 1)
          (tranche_investment 1000 mezzanine_pct) :=
  (tranche_irrs_identical (fun _ => none) (fun _ _ _ => rfl) 1000 1100 1).2.2.1

/-- C9: the draws are a deterministic function of the seed (modelled
stream), so two runs with the same seed produce identical results —
identical principals, rates, totals, tranche figures and IRRs; and for a
unit-interval stream the generator draws `num_loans` principals in
[10000, 50000) and `num_loans` annual rates in [0.05, 0.15). -/
theorem seeded_run_deterministic (prng : ℕ → ℕ → ℚ)
    (irrFind : List ℚ → Option ℚ) (seed1 seed2 : ℕ) (hseed : seed1 = seed2)
    (hu : ∀ i, 0 ≤ prng 42 i ∧ prng 42 i < 1) :
    runProgram prng irrFind seed1 = runProgram prng irrFind seed2
    ∧ (loan_amounts (prng 42)).length = num_loans
    ∧ (interest_rates (prng 42)).length = num_loans
    ∧ (∀ a ∈ loan_amounts (prng 42), 10000 ≤ a ∧ a < 50000)
    ∧ (∀ x ∈ interest_rates (prng 42), 5/100 ≤ x ∧ x < 15/100) := by
  refine ⟨by rw [hseed], by simp [loan_amounts], by simp [interest_rates], ?_, ?_⟩
  · intro a ha
    unfold loan_amounts at ha
    obtain ⟨i, hi, rfl⟩ := List.mem_map.mp ha
    obtain ⟨h0, h1⟩ := hu i
    unfold uniform
    constructor <;> nlinarith
  · intro x hx
    unfold interest_rates at hx
    obtain ⟨i, hi, rfl⟩ := List.mem_map.mp hx
    obtain ⟨h0, h1⟩ := hu (num_loans + i)
    unfold uniform
    constructor <;> nlinarith

theorem seeded_run_deterministic_witness :
    runProgram (fun _ _ => 0) (fun _ => none) 42
        = runProgram (fun _ _ => 0) (fun _ => none) 42
    ∧ (loan_amounts (fun _ => 0)).length = num_loans
    ∧ (interest_rates (fun _ => 0)).length = num_loans
    ∧ (∀ a ∈ loan_amounts (fun _ => 0), 10000 ≤ a ∧ a < 50000)
    ∧ (∀ x ∈ interest_rates (fun _ => 0), 5/100 ≤ x ∧ x < 15/100) :=
  seeded_run_deterministic (fun _ _ => 0) (fun _ => none) 42 42 rfl
    (by intro i; norm_num)

theorem reduced_payment_persists_witness :
    (amortize 0 (3 + 1) 1 2).1.map MonthEntry.payment
        = (1 + 1 * 0) :: List.replicate 3 0
    ∧ (amortize 0 (3 + 1) 1 2).1.map MonthEntry.balance_after
        = 0 :: List.replicate 3 0
    ∧ (∀ pay2 : ℚ, 0 ≤ pay2 →
        (amortize 0 3 0 pay2).1.map MonthEntry.payment
          = List.replicate 3 0) :=
  reduced_payment_persists 0 1 2 3 (by norm_num) (by norm_num) (by norm_num)

end ABS
